import Mathlib

set_option autoImplicit false

/-!
# Verification of the zenoh-cdn chunking and key-naming core

Shallow embedding of the zenoh-cdn sources (`src/types.rs`, `src/utils.rs`,
`src/client.rs`, `src/server.rs`).  Strings are modelled as lists of
characters (`Str`), bytes as natural numbers below 256 where it matters,
files as lists of bytes, and the fallible Rust functions as `Option` /
`Except` valued Lean functions.  External collaborators (the zenoh
transport, serde-JSON, the SHA-256 digest of the `sha2` crate) are taken
as parameters of the definitions that call them.
-/

/-- Rust `&str` values are modelled as lists of characters. -/
abbrev Str := List Char

/-- Embedding of Rust `str::strip_prefix`: `some` of the remainder when
`p` is a prefix of `s`, otherwise `none`. -/
def stripPre (p s : Str) : Option Str :=
  if p.isPrefixOf s then some (s.drop p.length) else none

/-- Embedding of Rust `str::split('/')` (collect into a vector): splits a
string on every `'/'`, keeping empty segments, never returning an empty
list of segments. -/
def splitOnSlash : Str → List Str
  | [] => [[]]
  | c :: rest =>
    if c = '/' then [] :: splitOnSlash rest
    else
      match splitOnSlash rest with
      | [] => [[c]]
      | h :: t => (c :: h) :: t

/-- Embedding of Rust `Vec::<&str>::join("/")`. -/
def joinSlash : List Str → Str
  | [] => []
  | [x] => x
  | x :: y :: xs => x ++ '/' :: joinSlash (y :: xs)

/-- Little-endian-free decimal digit list of `n`, with explicit fuel so the
definition is structural (the fuel `n` always suffices since `n / 10 < n`).
Mirrors what Rust's `format!("{}", n)` produces for a `usize`. -/
def natToDigitsAux : Nat → Nat → List Nat
  | 0, n => [n % 10]
  | fuel + 1, n => if n < 10 then [n] else natToDigitsAux fuel (n / 10) ++ [n % 10]

/-- Decimal digits of `n`, most significant first. -/
def natToDigits (n : Nat) : List Nat := natToDigitsAux n n

/-- Decimal rendering of `n`, as produced by Rust's `format!("{}", n)`. -/
def natToDec (n : Nat) : Str := (natToDigits n).map Nat.digitChar

/-- Value of a decimal digit character, `none` for a non-digit. -/
def charDigit (c : Char) : Option Nat :=
  if '0' ≤ c ∧ c ≤ '9' then some (c.toNat - '0'.toNat) else none

/-- The `usize` bound: Rust's `usize` is 64 bits on the target platforms. -/
def USIZE_BOUND : Nat := 2 ^ 64

/-- Decimal value of a nonempty all-digit string, rejecting overflow past
`usize`, `none` otherwise. -/
def parseDigitsStr (s : Str) : Option Nat :=
  match s.mapM charDigit with
  | some (d :: ds) =>
    let v := (d :: ds).foldl (fun a d => a * 10 + d) 0
    if v < USIZE_BOUND then some v else none
  | _ => none

/-- Embedding of Rust `str::parse::<usize>()`: an optional leading `'+'`
followed by at least one decimal digit, failing on overflow. -/
def parseUsize (s : Str) : Option Nat :=
  match s with
  | [] => none
  | c :: rest => if c = '+' then parseDigitsStr rest else parseDigitsStr (c :: rest)

/-! ## Basic lemmas about the string utilities -/

theorem splitOnSlash_ne_nil (s : Str) : splitOnSlash s ≠ [] := by
  induction s with
  | nil => simp [splitOnSlash]
  | cons c rest ih =>
    simp only [splitOnSlash]
    split
    · simp
    · cases h : splitOnSlash rest with
      | nil => simp
      | cons h t => simp

theorem splitOnSlash_cons_ne_slash (c : Char) (rest : Str) (hc : c ≠ '/') :
    splitOnSlash (c :: rest) =
      (c :: (splitOnSlash rest).headI) :: (splitOnSlash rest).tail := by
  simp only [splitOnSlash, if_neg hc]
  cases h : splitOnSlash rest with
  | nil => exact absurd h (splitOnSlash_ne_nil rest)
  | cons h t => simp [List.headI]

/-- Splitting distributes over concatenation at a separator. -/
theorem splitOnSlash_append (a b : Str) :
    splitOnSlash (a ++ '/' :: b) = splitOnSlash a ++ splitOnSlash b := by
  induction a with
  | nil => simp [splitOnSlash]
  | cons c rest ih =>
    by_cases hc : c = '/'
    · subst hc
      simp only [List.cons_append, splitOnSlash, if_pos rfl]
      simp [ih]
    · rw [List.cons_append, splitOnSlash_cons_ne_slash c (rest ++ '/' :: b) hc,
        splitOnSlash_cons_ne_slash c rest hc, ih]
      have hne := splitOnSlash_ne_nil rest
      cases h : splitOnSlash rest with
      | nil => exact absurd h hne
      | cons h t => simp

/-- A slash-free string splits into the single segment it is. -/
theorem splitOnSlash_no_slash (s : Str) (h : ∀ c ∈ s, c ≠ '/') :
    splitOnSlash s = [s] := by
  induction s with
  | nil => simp [splitOnSlash]
  | cons c rest ih =>
    have hc : c ≠ '/' := h c (by simp)
    have hrest : ∀ x ∈ rest, x ≠ '/' := fun x hx => h x (by simp [hx])
    rw [splitOnSlash_cons_ne_slash c rest hc, ih hrest]
    simp [List.headI]

/-- Joining undoes splitting. -/
theorem joinSlash_splitOnSlash (s : Str) : joinSlash (splitOnSlash s) = s := by
  induction s with
  | nil => simp [splitOnSlash, joinSlash]
  | cons c rest ih =>
    by_cases hc : c = '/'
    · subst hc
      simp only [splitOnSlash, if_pos rfl]
      have hne := splitOnSlash_ne_nil rest
      cases h : splitOnSlash rest with
      | nil => exact absurd h hne
      | cons h t =>
        rw [h] at ih
        simp [joinSlash, ih]
    · rw [splitOnSlash_cons_ne_slash c rest hc]
      have hne := splitOnSlash_ne_nil rest
      cases h : splitOnSlash rest with
      | nil => exact absurd h hne
      | cons hd tl =>
        rw [h] at ih
        cases tl with
        | nil => simpa [joinSlash, List.headI] using congrArg (c :: ·) ih
        | cons x xs => simpa [joinSlash, List.headI] using congrArg (c :: ·) ih

theorem stripPre_append (p rest : Str) : stripPre p (p ++ rest) = some rest := by
  simp [stripPre, List.isPrefixOf_iff_prefix, List.drop_left]

/-! ## Decimal round-trip lemmas -/

theorem natToDigitsAux_lt_ten (fuel n : Nat) :
    ∀ d ∈ natToDigitsAux fuel n, d < 10 := by
  induction fuel generalizing n with
  | zero =>
    intro d hd
    simp only [natToDigitsAux, List.mem_singleton] at hd
    subst hd
    exact Nat.mod_lt _ (by omega)
  | succ fuel ih =>
    intro d hd
    simp only [natToDigitsAux] at hd
    split at hd
    · simp only [List.mem_singleton] at hd
      omega
    · rcases List.mem_append.mp hd with h | h
      · exact ih _ d h
      · simp only [List.mem_singleton] at h
        subst h
        exact Nat.mod_lt _ (by omega)

theorem natToDigitsAux_foldl (fuel n : Nat) (h : n ≤ fuel) :
    (natToDigitsAux fuel n).foldl (fun a d => a * 10 + d) 0 = n := by
  induction fuel generalizing n with
  | zero =>
    have : n = 0 := by omega
    subst this
    simp [natToDigitsAux]
  | succ fuel ih =>
    simp only [natToDigitsAux]
    split
    · simp
    · rw [List.foldl_append]
      have hdiv : n / 10 ≤ fuel := by
        have := Nat.div_lt_self (by omega : 0 < n) (by omega : 1 < 10)
        omega
      rw [ih (n / 10) hdiv]
      simp only [List.foldl_cons, List.foldl_nil]
      omega

theorem charDigit_digitChar (d : Nat) (h : d < 10) :
    charDigit (Nat.digitChar d) = some d := by
  interval_cases d <;> decide

theorem digitChar_ne_slash (d : Nat) (h : d < 10) : Nat.digitChar d ≠ '/' := by
  interval_cases d <;> decide

theorem digitChar_ne_plus (d : Nat) (h : d < 10) : Nat.digitChar d ≠ '+' := by
  interval_cases d <;> decide

theorem natToDec_no_slash (n : Nat) : ∀ c ∈ natToDec n, c ≠ '/' := by
  intro c hc
  simp only [natToDec, List.mem_map] at hc
  obtain ⟨d, hd, rfl⟩ := hc
  exact digitChar_ne_slash d (natToDigitsAux_lt_ten n n d hd)

theorem mapM_charDigit_digitChar (l : List Nat) (h : ∀ d ∈ l, d < 10) :
    (l.map Nat.digitChar).mapM charDigit = some l := by
  induction l with
  | nil => rfl
  | cons d ds ih =>
    have hd : d < 10 := h d (by simp)
    have hds : ∀ x ∈ ds, x < 10 := fun x hx => h x (by simp [hx])
    simp only [List.map_cons, List.mapM_cons, charDigit_digitChar d hd,
      ih hds, Option.pure_def, Option.bind_eq_bind, Option.some_bind]

theorem natToDigits_ne_nil (n : Nat) : natToDigits n ≠ [] := by
  unfold natToDigits
  cases n with
  | zero => simp [natToDigitsAux]
  | succ m =>
    simp only [natToDigitsAux]
    split
    · simp
    · simp

/-- Parsing the decimal rendering of `n` recovers `n`, for `n` within the
`usize` range. -/
theorem parseUsize_natToDec (n : Nat) (h : n < USIZE_BOUND) :
    parseUsize (natToDec n) = some n := by
  have hdig : ∀ d ∈ natToDigits n, d < 10 := natToDigitsAux_lt_ten n n
  have hmapM : (natToDec n).mapM charDigit = some (natToDigits n) :=
    mapM_charDigit_digitChar (natToDigits n) hdig
  have hfold : (natToDigits n).foldl (fun a d => a * 10 + d) 0 = n :=
    natToDigitsAux_foldl n n (le_refl n)
  have hparse : parseDigitsStr (natToDec n) = some n := by
    unfold parseDigitsStr
    rw [hmapM]
    cases hnd : natToDigits n with
    | nil => exact absurd hnd (natToDigits_ne_nil n)
    | cons d ds =>
      rw [hnd] at hfold
      simp only [hfold, if_pos h]
  unfold parseUsize
  cases hdec : natToDec n with
  | nil => rw [hdec] at hparse; exact hparse
  | cons c cs =>
    have hcne : c ≠ '+' := by
      have : c ∈ natToDec n := by rw [hdec]; simp
      simp only [natToDec, List.mem_map] at this
      obtain ⟨d, hd, rfl⟩ := this
      exact digitChar_ne_plus d (hdig d hd)
    rw [hdec] at hparse
    simp only []
    rw [if_neg hcne]
    exact hparse

/-! ## Embedding of `src/types.rs` -/

/-- `types.rs`: `pub static FILES_KEY: &str = "files";` -/
def FILES_KEY : Str := "files".toList

/-- `types.rs`: `pub static METADATA_KEY: &str = "metadata";` -/
def METADATA_KEY : Str := "metadata".toList

/-- `types.rs`: `pub static DEFAULT_CHUNK_SIZE: usize = 1_048_576;` -/
def DEFAULT_CHUNK_SIZE : Nat := 1048576

/-- `types.rs` macro `FILE_CHUNK_PATH!(prefix, hash, chunk)`:
`format!("{}/{}/{}/{}", prefix, FILES_KEY, hash, chunk)`. -/
def file_chunk_path (root r : Str) (i : Nat) : Str :=
  root ++ '/' :: FILES_KEY ++ '/' :: r ++ '/' :: natToDec i

/-- `types.rs` macro `FILE_METADATA_PATH!(prefix, hash)`:
`format!("{}/{}/{}", prefix, FILES_KEY, hash)`. -/
def file_metadata_path (root r : Str) : Str :=
  root ++ '/' :: FILES_KEY ++ '/' :: r

/-- The resource prefix both server handlers compute:
`format!("{}/{}", root, FILES_KEY)` (`server.rs`). -/
def resource_prefix_of (root : Str) : Str :=
  root ++ '/' :: FILES_KEY

/-- `types.rs`: `FileMetadata` (serde JSON record published by the client). -/
structure FileMetadataR where
  filename : Str
  checksum : Str
  chunk_size : Nat
  chunks : Nat
  resource_name : Str
  size : Nat
  deriving Repr, DecidableEq

/-- `types.rs::extract_file_path`: strip `pre` from `path`, split the
remainder on `'/'`, drop the last segment, and re-join with `'/'`.
`none` models the `ZError` when `pre` is not a prefix of `path`. -/
def extract_file_path (pre path : Str) : Option Str :=
  (stripPre pre path).map fun p => joinSlash (splitOnSlash p).dropLast

/-- `types.rs::extract_complete_file_path`: strip `pre` from `path`. -/
def extract_complete_file_path (pre path : Str) : Option Str :=
  stripPre pre path

/-- `types.rs::extract_chunk_number`: parse the final `'/'`-separated
segment of `path` as a `usize`. -/
def extract_chunk_number (path : Str) : Option Nat :=
  match (splitOnSlash path).getLast? with
  | some s => parseUsize s
  | none => none

/-- Result of classifying a key, as the server's query handler does. -/
inductive KeyRef where
  | chunk (r : Str) (i : Nat)
  | meta (r : Str)
  deriving Repr, DecidableEq

/-- Key classification as performed by `server.rs::process_query`
(lines 126-159): take the complete path after the resource prefix; if its
final segment parses as a `usize` the key addresses that chunk of the
resource recovered by `extract_file_path`, otherwise it addresses the
metadata of the complete path. -/
def classify (pre key : Str) : Option KeyRef :=
  match extract_complete_file_path pre key with
  | none => none
  | some cp =>
    match extract_chunk_number cp with
    | some n =>
      match extract_file_path pre key with
      | some r => some (.chunk r n)
      | none => none
    | none => some (.meta cp)

/-! ## Key extraction lemmas -/

theorem splitOnSlash_getLast?_append (a b : Str) :
    (splitOnSlash (a ++ '/' :: b)).getLast? = (splitOnSlash b).getLast? := by
  rw [splitOnSlash_append, List.getLast?_append]
  cases h : (splitOnSlash b).getLast? with
  | some x => rfl
  | none =>
    have : splitOnSlash b = [] := by
      cases hb : splitOnSlash b with
      | nil => rfl
      | cons y ys => rw [hb] at h; simp [List.getLast?] at h
    exact absurd this (splitOnSlash_ne_nil b)

/-- On a chunk key, `extract_chunk_number` recovers exactly the index. -/
theorem extract_chunk_number_chunk_path (root r : Str) (i : Nat)
    (h : i < USIZE_BOUND) :
    extract_chunk_number (file_chunk_path root r i) = some i := by
  unfold extract_chunk_number file_chunk_path
  have : root ++ '/' :: FILES_KEY ++ '/' :: r ++ '/' :: natToDec i
      = (root ++ '/' :: FILES_KEY ++ '/' :: r) ++ '/' :: natToDec i := by
    simp [List.append_assoc]
  rw [this, splitOnSlash_getLast?_append,
    splitOnSlash_no_slash (natToDec i) (natToDec_no_slash i)]
  simp [parseUsize_natToDec i h]

/-- On a chunk key, `extract_file_path` returns the resource name with a
leading `'/'` (the slash separating the prefix from the name is not
stripped). -/
theorem extract_file_path_chunk_path (root r : Str) (i : Nat) :
    extract_file_path (resource_prefix_of root) (file_chunk_path root r i)
      = some ('/' :: r) := by
  unfold extract_file_path file_chunk_path resource_prefix_of
  have hkey : root ++ '/' :: FILES_KEY ++ '/' :: r ++ '/' :: natToDec i
      = (root ++ '/' :: FILES_KEY) ++ ('/' :: r ++ '/' :: natToDec i) := by
    simp [List.append_assoc]
  rw [hkey, stripPre_append]
  rw [Option.map_some']
  congr 1
  have hsplit : splitOnSlash ('/' :: r ++ '/' :: natToDec i)
      = [] :: splitOnSlash r ++ [natToDec i] := by
    have : ('/' :: r ++ '/' :: natToDec i) = [] ++ '/' :: (r ++ '/' :: natToDec i) := by
      simp
    rw [this, splitOnSlash_append, splitOnSlash_append,
      splitOnSlash_no_slash (natToDec i) (natToDec_no_slash i)]
    simp [splitOnSlash]
  rw [hsplit]
  rw [show ([] :: splitOnSlash r ++ [natToDec i] : List Str)
      = ([] :: splitOnSlash r) ++ [natToDec i] by simp]
  rw [List.dropLast_concat]
  have hne := splitOnSlash_ne_nil r
  cases hsr : splitOnSlash r with
  | nil => exact absurd hsr hne
  | cons h t =>
    have := joinSlash_splitOnSlash r
    rw [hsr] at this
    simp [joinSlash, this]

/-- On a metadata key, `extract_complete_file_path` returns the resource
name with a leading `'/'`. -/
theorem extract_complete_file_path_metadata_path (root r : Str) :
    extract_complete_file_path (resource_prefix_of root) (file_metadata_path root r)
      = some ('/' :: r) := by
  unfold extract_complete_file_path file_metadata_path resource_prefix_of
  have hkey : root ++ '/' :: FILES_KEY ++ '/' :: r
      = (root ++ '/' :: FILES_KEY) ++ ('/' :: r) := by
    simp [List.append_assoc]
  rw [hkey, stripPre_append]

/-- The final `'/'`-separated segment of a string (total: split is never
empty). -/
def lastSeg (s : Str) : Str := (splitOnSlash s).getLastD []

theorem getLast?_splitOnSlash (s : Str) :
    (splitOnSlash s).getLast? = some (lastSeg s) := by
  have hne := splitOnSlash_ne_nil s
  have hsome : (splitOnSlash s).getLast?.isSome := by
    cases h : splitOnSlash s with
    | nil => exact absurd h hne
    | cons x xs => simp [List.getLast?_isSome]
  obtain ⟨x, hx⟩ := Option.isSome_iff_exists.mp hsome
  rw [hx]
  unfold lastSeg
  rw [List.getLastD_eq_getLast?, hx]
  rfl

/-- Chunk keys classify as chunks: index recovered exactly, resource name
recovered with a leading `'/'`. -/
theorem classify_chunk_path (root r : Str) (i : Nat) (h : i < USIZE_BOUND) :
    classify (resource_prefix_of root) (file_chunk_path root r i)
      = some (.chunk ('/' :: r) i) := by
  unfold classify
  have hcp : extract_complete_file_path (resource_prefix_of root)
      (file_chunk_path root r i) = some ('/' :: r ++ '/' :: natToDec i) := by
    unfold extract_complete_file_path file_chunk_path resource_prefix_of
    have hkey : root ++ '/' :: FILES_KEY ++ '/' :: r ++ '/' :: natToDec i
        = (root ++ '/' :: FILES_KEY) ++ ('/' :: r ++ '/' :: natToDec i) := by
      simp [List.append_assoc]
    rw [hkey, stripPre_append]
  rw [hcp]
  simp only []
  have hnum : extract_chunk_number ('/' :: r ++ '/' :: natToDec i) = some i := by
    unfold extract_chunk_number
    have hsplit : ('/' :: r ++ '/' :: natToDec i : Str)
        = ('/' :: r) ++ '/' :: natToDec i := by simp
    rw [hsplit, splitOnSlash_getLast?_append,
      splitOnSlash_no_slash (natToDec i) (natToDec_no_slash i)]
    simp [parseUsize_natToDec i h]
  rw [hnum]
  simp only []
  rw [extract_file_path_chunk_path root r i]

/-- Metadata keys whose resource name has a non-numeric final segment
classify as metadata, with the resource name carrying a leading `'/'`. -/
theorem classify_metadata_path (root r : Str)
    (h : parseUsize (lastSeg r) = none) :
    classify (resource_prefix_of root) (file_metadata_path root r)
      = some (.meta ('/' :: r)) := by
  unfold classify
  rw [extract_complete_file_path_metadata_path root r]
  have hnum : extract_chunk_number ('/' :: r) = none := by
    unfold extract_chunk_number
    have hsplit : ('/' :: r : Str) = [] ++ '/' :: r := by simp
    rw [hsplit, splitOnSlash_getLast?_append, getLast?_splitOnSlash]
    simp only []
    exact h
  simp only []
  rw [hnum]

/-- C1, as stated, is false: stripping the prefix `root ++ "/files"` from a
chunk key leaves a leading `'/'` on the recovered resource name, so
`extract_file_path` returns `"/foo"`, not `"foo"`, already at
`root = "/zenohcdn"`, `r = "foo"`, `i = 0`. -/
theorem c1_counterexample :
    extract_file_path (resource_prefix_of "/zenohcdn".toList)
      (file_chunk_path "/zenohcdn".toList "foo".toList 0)
      ≠ some "foo".toList := by
  decide

/-- C1 (amended): key classification inverts key construction up to a
leading separator: for every root, every resource name `r` whose final
segment does not parse as a `usize`, and every index `i` within the
`usize` range, the chunk key `root/files/r/i` classifies as a chunk of
resource `'/' :: r` with index exactly `i` (so `extract_file_path`
returns `'/' :: r` and `extract_chunk_number` returns `i`), and the
metadata key `root/files/r` classifies as metadata of resource
`'/' :: r`. -/
theorem c1_key_classification (root r : Str) (i : Nat)
    (hi : i < USIZE_BOUND) (hr : parseUsize (lastSeg r) = none) :
    classify (resource_prefix_of root) (file_chunk_path root r i)
        = some (.chunk ('/' :: r) i)
    ∧ extract_file_path (resource_prefix_of root) (file_chunk_path root r i)
        = some ('/' :: r)
    ∧ extract_chunk_number (file_chunk_path root r i) = some i
    ∧ classify (resource_prefix_of root) (file_metadata_path root r)
        = some (.meta ('/' :: r)) :=
  ⟨classify_chunk_path root r i hi,
   extract_file_path_chunk_path root r i,
   extract_chunk_number_chunk_path root r i hi,
   classify_metadata_path root r hr⟩

/-- Witness for `c1_key_classification` at `root = "/zenohcdn"`,
`r = "foo"`, `i = 0`. -/
theorem c1_key_classification_witness :
    classify (resource_prefix_of "/zenohcdn".toList)
        (file_chunk_path "/zenohcdn".toList "foo".toList 0)
        = some (.chunk ('/' :: "foo".toList) 0)
    ∧ extract_file_path (resource_prefix_of "/zenohcdn".toList)
        (file_chunk_path "/zenohcdn".toList "foo".toList 0)
        = some ('/' :: "foo".toList)
    ∧ extract_chunk_number (file_chunk_path "/zenohcdn".toList "foo".toList 0)
        = some 0
    ∧ classify (resource_prefix_of "/zenohcdn".toList)
        (file_metadata_path "/zenohcdn".toList "foo".toList)
        = some (.meta ('/' :: "foo".toList)) :=
  c1_key_classification "/zenohcdn".toList "foo".toList 0 (by decide) (by decide)

/-! ## Embedding of `src/utils.rs`: reading a chunk from the source file -/

/-- Failure of `utils.rs::get_bytes_from_file` visible in the pure model.
`underflow` is the `usize` subtraction `file_size - offset` with
`offset > file_size`: a panic in debug builds; in release builds the
wrapped value makes `read_exact` ask for more bytes than remain, which
fails.  Environmental I/O failures (open/stat) are outside the model,
which is handed the file's contents. -/
inductive GetBytesErr where
  | underflow
  deriving Repr, DecidableEq

/-- `utils.rs::get_bytes_from_file`: the file is `file` (a list of bytes),
`offset = chunk_number * chunk_size` is a `usize` product and therefore
wraps modulo `2^64` in release builds (the build this model follows;
debug builds panic at the multiplication instead),
`missing_bytes = file_size - offset` (usize subtraction, see
`GetBytesErr.underflow`), `buffer_len = min missing_bytes chunk_size`,
and `read_exact` fills the buffer with the `buffer_len` bytes at
`offset`. -/
def get_bytes_from_file (file : List Nat) (chunk_number chunk_size : Nat) :
    Except GetBytesErr (List Nat) :=
  let file_size := file.length
  let offset := chunk_number * chunk_size % USIZE_BOUND
  if offset ≤ file_size then
    let missing_bytes := file_size - offset
    let buffer_len := min missing_bytes chunk_size
    .ok ((file.drop offset).take buffer_len)
  else .error .underflow

/-- C3: for every readable file (a real file's size is a `usize`, hence
below `2^64`) and every chunk index whose offset `idx * chunkSize` lies
within the file, `get_bytes_from_file` succeeds and returns exactly
`min chunkSize (fileSize - offset)` bytes, and those bytes are the file's
contents starting at absolute offset `idx * chunkSize` (no wrap can occur
since the offset is bounded by the `usize` file size). -/
theorem c3_read_chunk_in_range (file : List Nat) (idx cs : Nat)
    (hsize : file.length < USIZE_BOUND) (h : idx * cs ≤ file.length) :
    ∃ data, get_bytes_from_file file idx cs = .ok data
      ∧ data.length = min cs (file.length - idx * cs)
      ∧ ∀ j < data.length, data.getD j 0 = file.getD (idx * cs + j) 0 := by
  have hnowrap : idx * cs % USIZE_BOUND = idx * cs :=
    Nat.mod_eq_of_lt (by omega)
  refine ⟨(file.drop (idx * cs)).take (min (file.length - idx * cs) cs), ?_, ?_, ?_⟩
  · simp only [get_bytes_from_file, hnowrap]
    rw [if_pos h]
  · rw [List.length_take, List.length_drop]
    omega
  · intro j hj
    rw [List.length_take, List.length_drop] at hj
    have hjlt : j < min (file.length - idx * cs) cs := by omega
    rw [List.getD_eq_getElem?_getD, List.getD_eq_getElem?_getD,
      List.getElem?_take_of_lt hjlt, List.getElem?_drop]

/-- Witness for `c3_read_chunk_in_range` at `file = [10, 20, 30]`,
`idx = 1`, `chunkSize = 2`. -/
theorem c3_read_chunk_in_range_witness :
    ([10, 20, 30] : List Nat).length < USIZE_BOUND
    ∧ 1 * 2 ≤ ([10, 20, 30] : List Nat).length
    ∧ ∃ data, get_bytes_from_file [10, 20, 30] 1 2 = .ok data
      ∧ data.length = min 2 (([10, 20, 30] : List Nat).length - 1 * 2)
      ∧ ∀ j < data.length, data.getD j 0 = ([10, 20, 30] : List Nat).getD (1 * 2 + j) 0 :=
  ⟨by decide, by decide, c3_read_chunk_in_range [10, 20, 30] 1 2 (by decide) (by decide)⟩

/-- C4, as stated, is false: at `offset = fileSize` (here the 2-byte file
`[0, 1]` with `idx = 1`, `chunkSize = 2`) the call returns successfully
with an empty buffer instead of failing with `ChunkOutOfRange`. -/
theorem c4_counterexample :
    get_bytes_from_file [0, 1] 1 2 = .ok [] := rfl

/-- C4 (amended): the code has no `ChunkOutOfRange` error at all, and the
effective offset is the release-build `usize` product
`idx * chunkSize mod 2^64`.  When that wrapped offset equals `fileSize`
the call returns successfully with zero bytes (the empty trailing chunk
that upload's `size/chunkSize + 1` chunk count relies on); when it
exceeds `fileSize` the `usize` subtraction `file_size - offset`
underflows — a panic in debug builds, a wrapped length followed by a
failed `read_exact` in release builds — never a dedicated out-of-range
error; and whenever the wrapped offset lies within the file — including
when the mathematical product `idx * chunkSize` has overflowed past
`2^64` — the call succeeds and reads from the wrapped offset. -/
theorem c4_out_of_range (file : List Nat) (idx cs : Nat)
    (h : file.length ≤ idx * cs % USIZE_BOUND) :
    (get_bytes_from_file file idx cs =
      if idx * cs % USIZE_BOUND = file.length then .ok [] else .error .underflow)
    ∧ ∀ (file2 : List Nat) (i2 c2 : Nat), i2 * c2 % USIZE_BOUND ≤ file2.length →
        ∃ data, get_bytes_from_file file2 i2 c2 = .ok data := by
  constructor
  · simp only [get_bytes_from_file]
    by_cases heq : idx * cs % USIZE_BOUND = file.length
    · rw [if_pos (by omega : idx * cs % USIZE_BOUND ≤ file.length), if_pos heq]
      rw [heq]
      simp
    · rw [if_neg (by omega), if_neg heq]
  · intro file2 i2 c2 h2
    refine ⟨(file2.drop (i2 * c2 % USIZE_BOUND)).take
      (min (file2.length - i2 * c2 % USIZE_BOUND) c2), ?_⟩
    simp only [get_bytes_from_file]
    rw [if_pos h2]

/-- Witness for `c4_out_of_range` at `file = [0, 1]`, `idx = 1`,
`chunkSize = 2` (offset exactly the file size); the second conjunct is
exercised at `idx = 2^63`, `chunkSize = 2` on a 4-byte file, whose
mathematical offset `2^64` wraps to `0` in a release build and reads
successfully. -/
theorem c4_out_of_range_witness :
    ([0, 1] : List Nat).length ≤ 1 * 2 % USIZE_BOUND
    ∧ (get_bytes_from_file [0, 1] 1 2 =
        if 1 * 2 % USIZE_BOUND = ([0, 1] : List Nat).length then .ok []
        else .error .underflow)
    ∧ (2 ^ 63 * 2 % USIZE_BOUND ≤ ([9, 8, 7, 6] : List Nat).length
      ∧ ∃ data, get_bytes_from_file [9, 8, 7, 6] (2 ^ 63) 2 = .ok data) := by
  have h := c4_out_of_range [0, 1] 1 2 (by decide)
  exact ⟨by decide, h.1,
    by decide, h.2 [9, 8, 7, 6] (2 ^ 63) 2 (by decide)⟩

/-! ## Embedding of `src/utils.rs`: positional chunk writes -/

/-- In-place range write, the semantics of
`data[initial_position..final_position].copy_from_slice(src)` on the
memory-mapped file: byte `initial_position + j` becomes `src[j]`, all
other bytes keep their value. -/
def writeRange : List Nat → Nat → List Nat → List Nat
  | [], _, _ => []
  | fh :: ft, 0, [] => fh :: ft
  | _ :: ft, 0, sh :: st => sh :: writeRange ft 0 st
  | fh :: ft, q + 1, s => fh :: writeRange ft q s

/-- Failure of `utils.rs::write_destination_file` visible in the pure
model: a slice `data[initial..final]` with `final` past the end of the
mapped file panics in Rust. -/
inductive WriteErr where
  | sliceOutOfBounds
  deriving Repr, DecidableEq

/-- `utils.rs::write_destination_file`: maps the destination file,
computes `initial_position = chunk_num * chunk_size` and
`final_position = initial_position + src.len()`, and copies `src` over
that range. -/
def write_destination_file (file src : List Nat) (chunk_num chunk_size : Nat) :
    Except WriteErr (List Nat) :=
  let initial_position := chunk_num * chunk_size
  let final_position := initial_position + src.length
  if final_position ≤ file.length then
    .ok (writeRange file initial_position src)
  else .error .sliceOutOfBounds

theorem writeRange_length (f : List Nat) (p : Nat) (s : List Nat) :
    (writeRange f p s).length = f.length := by
  induction f generalizing p s with
  | nil => simp [writeRange]
  | cons fh ft ih =>
    cases p with
    | zero =>
      cases s with
      | nil => simp [writeRange]
      | cons sh st => simp [writeRange, ih]
    | succ q => simp [writeRange, ih]

/-- Pointwise description of `writeRange`. -/
theorem writeRange_getD (f : List Nat) (p : Nat) (s : List Nat) (j : Nat) :
    (writeRange f p s).getD j 0 =
      if p ≤ j ∧ j < p + s.length ∧ j < f.length then s.getD (j - p) 0
      else f.getD j 0 := by
  induction f generalizing p s j with
  | nil =>
    simp [writeRange, List.getD]
  | cons fh ft ih =>
    cases p with
    | zero =>
      cases s with
      | nil => simp [writeRange]
      | cons sh st =>
        cases j with
        | zero => simp [writeRange, List.getD]
        | succ k =>
          simp only [writeRange, List.getD_cons_succ, ih 0 st k]
          simp only [List.length_cons, List.length_cons]
          by_cases hk : 0 ≤ k ∧ k < 0 + st.length ∧ k < ft.length
          · rw [if_pos hk, if_pos (by omega)]
            simp
          · rw [if_neg hk, if_neg (by omega)]
    | succ q =>
      cases j with
      | zero =>
        simp only [writeRange, List.getD_cons_zero]
        rw [if_neg (by omega)]
      | succ k =>
        simp only [writeRange, List.getD_cons_succ, ih q s k, List.length_cons]
        by_cases hk : q ≤ k ∧ k < q + s.length ∧ k < ft.length
        · rw [if_pos hk, if_pos (by omega)]
          have : k + 1 - (q + 1) = k - q := by omega
          rw [this]
        · rw [if_neg hk, if_neg (by omega)]

/-- Two `writeRange`s at disjoint in-bounds ranges commute. -/
theorem writeRange_comm (file s s' : List Nat) (p p' : Nat)
    (hdisj : p + s.length ≤ p' ∨ p' + s'.length ≤ p) :
    writeRange (writeRange file p s) p' s'
      = writeRange (writeRange file p' s') p s := by
  apply List.ext_getElem
  · simp [writeRange_length]
  · intro j h1 h2
    have hl1 : j < file.length := by
      simpa [writeRange_length] using h1
    have e1 : (writeRange (writeRange file p s) p' s').getD j 0
        = (writeRange (writeRange file p' s') p s).getD j 0 := by
      rw [writeRange_getD, writeRange_getD, writeRange_getD, writeRange_getD,
        writeRange_length, writeRange_length]
      by_cases hin : p' ≤ j ∧ j < p' + s'.length ∧ j < file.length
      · rw [if_pos hin]
        have : ¬ (p ≤ j ∧ j < p + s.length ∧ j < file.length) := by omega
        rw [if_neg this, if_pos hin]
      · rw [if_neg hin]
        by_cases hin2 : p ≤ j ∧ j < p + s.length ∧ j < file.length
        · rw [if_pos hin2, if_pos hin2]
        · rw [if_neg hin2, if_neg hin2, if_neg hin]
    rw [List.getD_eq_getElem _ 0 h1, List.getD_eq_getElem _ 0 h2] at e1
    exact e1

/-- C8: writing chunk `i` of length `L` into a pre-sized destination file
with `i*C + L ≤ fileSize` succeeds, sets exactly the bytes of
`[i*C, i*C + L)` to the chunk data, leaves every byte outside that range
unchanged, and writes for distinct chunk indices (with chunk data no
longer than the chunk size) commute. -/
theorem c8_write_destination_frame (file src : List Nat) (i C : Nat)
    (h : i * C + src.length ≤ file.length) :
    (∃ out, write_destination_file file src i C = .ok out
      ∧ out.length = file.length
      ∧ (∀ j, i * C ≤ j → j < i * C + src.length →
          out.getD j 0 = src.getD (j - i * C) 0)
      ∧ (∀ j, j < i * C ∨ i * C + src.length ≤ j →
          out.getD j 0 = file.getD j 0))
    ∧ (∀ src' i', i ≠ i' → src.length ≤ C → src'.length ≤ C →
        i' * C + src'.length ≤ file.length →
        (write_destination_file file src i C).bind
            (fun f2 => write_destination_file f2 src' i' C)
          = (write_destination_file file src' i' C).bind
            (fun f2 => write_destination_file f2 src i C)) := by
  constructor
  · refine ⟨writeRange file (i * C) src, ?_, writeRange_length file (i * C) src, ?_, ?_⟩
    · simp only [write_destination_file]
      rw [if_pos h]
    · intro j hj1 hj2
      rw [writeRange_getD, if_pos ⟨hj1, hj2, by omega⟩]
    · intro j hj
      rw [writeRange_getD, if_neg (by omega)]
  · intro src' i' hne hlen hlen' h'
    have hdisj : i * C + src.length ≤ i' * C ∨ i' * C + src'.length ≤ i * C := by
      rcases Nat.lt_or_ge i i' with hlt | hge
      · left
        have : (i + 1) * C ≤ i' * C := Nat.mul_le_mul_right C hlt
        have : i * C + C ≤ i' * C := by rw [Nat.succ_mul] at this; omega
        omega
      · right
        have hlt' : i' < i := by omega
        have : (i' + 1) * C ≤ i * C := Nat.mul_le_mul_right C hlt'
        have : i' * C + C ≤ i * C := by rw [Nat.succ_mul] at this; omega
        omega
    simp only [write_destination_file]
    rw [if_pos h, if_pos h']
    simp only [Except.bind]
    rw [if_pos (by rw [writeRange_length]; omega),
      if_pos (by rw [writeRange_length]; omega)]
    rw [writeRange_comm file src src' (i * C) (i' * C) hdisj]

/-- Witness for `c8_write_destination_frame` at `file = [0, 0, 0, 0]`,
`src = [7, 8]`, `i = 1`, `C = 2`. -/
theorem c8_write_destination_frame_witness :
    ((∃ out, write_destination_file [0, 0, 0, 0] [7, 8] 1 2 = .ok out
      ∧ out.length = ([0, 0, 0, 0] : List Nat).length
      ∧ (∀ j, 1 * 2 ≤ j → j < 1 * 2 + ([7, 8] : List Nat).length →
          out.getD j 0 = ([7, 8] : List Nat).getD (j - 1 * 2) 0)
      ∧ (∀ j, j < 1 * 2 ∨ 1 * 2 + ([7, 8] : List Nat).length ≤ j →
          out.getD j 0 = ([0, 0, 0, 0] : List Nat).getD j 0))
    ∧ (∀ src' i', 1 ≠ i' → ([7, 8] : List Nat).length ≤ 2 → src'.length ≤ 2 →
        i' * 2 + src'.length ≤ ([0, 0, 0, 0] : List Nat).length →
        (write_destination_file [0, 0, 0, 0] [7, 8] 1 2).bind
            (fun f2 => write_destination_file f2 src' i' 2)
          = (write_destination_file [0, 0, 0, 0] src' i' 2).bind
            (fun f2 => write_destination_file f2 [7, 8] 1 2))) :=
  c8_write_destination_frame [0, 0, 0, 0] [7, 8] 1 2 (by decide)

/-! ## Embedding of `src/client.rs`: upload -/

/-- A publication on the zenoh session (`z.put`).  Chunk payloads are
tagged `Encoding::APP_OCTET_STREAM`, the metadata record
`Encoding::APP_JSON`; the tag is reflected by the constructor. -/
inductive PubEvent where
  | chunk (key : Str) (data : List Nat)
  | meta (key : Str) (md : FileMetadataR)
  deriving Repr, DecidableEq

/-- Failures surfaced by `Client::upload`. -/
inductive UploadErr where
  | readErr (i : Nat)
  | chunkPubErr (i : Nat)
  | metaPubErr
  deriving Repr, DecidableEq

/-- `client.rs` line 63: `(file_metadata.len() as usize) / DEFAULT_CHUNK_SIZE + 1`. -/
def chunkCount (file_len : Nat) : Nat := file_len / DEFAULT_CHUNK_SIZE + 1

/-- The `FileMetadata` record built by `Client::upload` (lines 65-72). -/
def uploadMetadata (fname checksum r : Str) (file_len : Nat) : FileMetadataR :=
  { filename := fname
    checksum := checksum
    chunk_size := DEFAULT_CHUNK_SIZE
    chunks := chunkCount file_len
    resource_name := r
    size := file_len }

/-- The bytes `get_bytes_from_file` returns for an in-range chunk, at the
release-build wrapped offset (identical to the mathematical offset for
every real file, whose `usize` size bounds the offset below `2^64`). -/
def chunkData (file : List Nat) (i : Nat) : List Nat :=
  (file.drop (i * DEFAULT_CHUNK_SIZE % USIZE_BOUND)).take
    (min (file.length - i * DEFAULT_CHUNK_SIZE % USIZE_BOUND) DEFAULT_CHUNK_SIZE)

theorem get_bytes_eq_chunkData (file : List Nat) (i : Nat)
    (h : i * DEFAULT_CHUNK_SIZE ≤ file.length) :
    get_bytes_from_file file i DEFAULT_CHUNK_SIZE = .ok (chunkData file i) := by
  have hw : i * DEFAULT_CHUNK_SIZE % USIZE_BOUND ≤ file.length :=
    le_trans (Nat.mod_le _ _) h
  simp only [get_bytes_from_file, chunkData]
  rw [if_pos hw]

/-- The chunk-publication loop of `Client::upload` (lines 74-79), over an
explicit list of indices.  The I/O of `get_bytes_from_file` and the
network `z.put` may fail; their outcomes are the oracles `readOk` and
`pubOk`.  The trace collects the publications that succeeded, in order; a
failure stops the loop and reports the error. -/
def uploadChunksGo (root r : Str) (file : List Nat) (readOk pubOk : Nat → Bool) :
    List Nat → List PubEvent × Option UploadErr
  | [] => ([], none)
  | i :: rest =>
    if readOk i = false then ([], some (.readErr i))
    else
      match get_bytes_from_file file i DEFAULT_CHUNK_SIZE with
      | .error _ => ([], some (.readErr i))
      | .ok data =>
        if pubOk i = false then ([], some (.chunkPubErr i))
        else
          (.chunk (file_chunk_path root r i) data
              :: (uploadChunksGo root r file readOk pubOk rest).1,
            (uploadChunksGo root r file readOk pubOk rest).2)

/-- `Client::upload` (lines 48-87): compute the chunk count, run the
chunk-publication loop for indices `0..chunks`, and only then serialize
and publish the metadata record at the metadata key, returning that key.
`fname` and `checksum` stand for the file-name component and the MD5
whole-file hash computed before the loop; `metaOk` is the outcome of the
final metadata `z.put`. -/
def upload (root r fname checksum : Str) (file : List Nat)
    (readOk pubOk : Nat → Bool) (metaOk : Bool) :
    List PubEvent × Except UploadErr Str :=
  let chunks := chunkCount file.length
  let md := uploadMetadata fname checksum r file.length
  let looped := uploadChunksGo root r file readOk pubOk (List.range chunks)
  match looped.2 with
  | some e => (looped.1, .error e)
  | none =>
    if metaOk then
      (looped.1 ++ [.meta (file_metadata_path root r) md],
        .ok (file_metadata_path root r))
    else (looped.1, .error .metaPubErr)

theorem uploadChunksGo_all_ok (root r : Str) (file : List Nat)
    (readOk pubOk : Nat → Bool) (l : List Nat)
    (hread : ∀ i ∈ l, readOk i = true) (hpub : ∀ i ∈ l, pubOk i = true)
    (hrange : ∀ i ∈ l, i * DEFAULT_CHUNK_SIZE ≤ file.length) :
    uploadChunksGo root r file readOk pubOk l
      = (l.map fun i => .chunk (file_chunk_path root r i) (chunkData file i), none) := by
  induction l with
  | nil => simp [uploadChunksGo]
  | cons i rest ih =>
    have hri : ¬ readOk i = false := by simp [hread i (by simp)]
    have hpi : ¬ pubOk i = false := by simp [hpub i (by simp)]
    simp only [uploadChunksGo]
    rw [if_neg hri, get_bytes_eq_chunkData file i (hrange i (by simp))]
    simp only []
    rw [if_neg hpi]
    rw [ih (fun j hj => hread j (by simp [hj])) (fun j hj => hpub j (by simp [hj]))
      (fun j hj => hrange j (by simp [hj]))]
    simp

theorem uploadChunksGo_append_ok (root r : Str) (file : List Nat)
    (readOk pubOk : Nat → Bool) (l1 l2 : List Nat)
    (h1 : (uploadChunksGo root r file readOk pubOk l1).2 = none) :
    uploadChunksGo root r file readOk pubOk (l1 ++ l2)
      = ((uploadChunksGo root r file readOk pubOk l1).1
          ++ (uploadChunksGo root r file readOk pubOk l2).1,
        (uploadChunksGo root r file readOk pubOk l2).2) := by
  induction l1 with
  | nil => simp [uploadChunksGo]
  | cons i rest ih =>
    simp only [uploadChunksGo, List.cons_append] at h1 ⊢
    by_cases hr : readOk i = false
    · rw [if_pos hr] at h1
      simp at h1
    · rw [if_neg hr] at h1 ⊢
      cases hdata : get_bytes_from_file file i DEFAULT_CHUNK_SIZE with
      | error e =>
        rw [hdata] at h1
        simp at h1
      | ok data =>
        rw [hdata] at h1
        simp only [] at h1 ⊢
        rw [if_neg hr]
        by_cases hp : pubOk i = false
        · rw [if_pos hp] at h1
          simp at h1
        · rw [if_neg hp] at h1 ⊢
          simp only [] at h1 ⊢
          rw [if_neg hp]
          simp only [List.append_eq]
          rw [ih h1]
          simp

/-- Every index below the chunk count reads in range: the offset of chunk
`i < len/C + 1` is at most `len`. -/
theorem range_chunkCount_in_range (file_len i : Nat) (h : i < chunkCount file_len) :
    i * DEFAULT_CHUNK_SIZE ≤ file_len := by
  unfold chunkCount at h
  have hi : i ≤ file_len / DEFAULT_CHUNK_SIZE := by omega
  calc i * DEFAULT_CHUNK_SIZE
      ≤ (file_len / DEFAULT_CHUNK_SIZE) * DEFAULT_CHUNK_SIZE :=
        Nat.mul_le_mul_right _ hi
    _ ≤ file_len := Nat.div_mul_le_self _ _

theorem uploadChunksGo_fail_at (root r : Str) (file : List Nat)
    (readOk pubOk : Nat → Bool) (n k : Nat)
    (hk : k < n) (hpf : pubOk k = false)
    (hbefore : ∀ i < k, pubOk i = true)
    (hread : ∀ i, readOk i = true)
    (hrange : ∀ i < n, i * DEFAULT_CHUNK_SIZE ≤ file.length) :
    uploadChunksGo root r file readOk pubOk (List.range n)
      = ((List.range k).map fun i => .chunk (file_chunk_path root r i) (chunkData file i),
        some (.chunkPubErr k)) := by
  obtain ⟨m, hm⟩ : ∃ m, n - k = m + 1 := ⟨n - k - 1, by omega⟩
  have hsplit : List.range n = List.range k ++ (List.range (m + 1)).map (k + ·) := by
    rw [← hm, ← List.range_add]
    congr 1
    omega
  have hgo_k : uploadChunksGo root r file readOk pubOk (List.range k)
      = ((List.range k).map fun i =>
          .chunk (file_chunk_path root r i) (chunkData file i), none) := by
    apply uploadChunksGo_all_ok
    · exact fun i _ => hread i
    · intro i hi
      exact hbefore i (List.mem_range.mp hi)
    · intro i hi
      exact hrange i (by have := List.mem_range.mp hi; omega)
  have hhead : (List.range (m + 1)).map (k + ·) = k :: ((List.range m).map Nat.succ).map (k + ·) := by
    rw [List.range_succ_eq_map]
    simp
  have hgo_fail : uploadChunksGo root r file readOk pubOk
      ((List.range (m + 1)).map (k + ·))
      = ([], some (.chunkPubErr k)) := by
    rw [hhead]
    simp only [uploadChunksGo]
    rw [if_neg (by simp [hread k]),
      get_bytes_eq_chunkData file k (hrange k hk)]
    simp only []
    rw [if_pos hpf]
  rw [hsplit, uploadChunksGo_append_ok root r file readOk pubOk _ _ (by rw [hgo_k]),
    hgo_k, hgo_fail]
  simp

theorem uploadChunksGo_read_fail_at (root r : Str) (file : List Nat)
    (readOk pubOk : Nat → Bool) (n k : Nat)
    (hk : k < n) (hrf : readOk k = false)
    (hrbefore : ∀ i < k, readOk i = true)
    (hpbefore : ∀ i < k, pubOk i = true)
    (hrange : ∀ i < n, i * DEFAULT_CHUNK_SIZE ≤ file.length) :
    uploadChunksGo root r file readOk pubOk (List.range n)
      = ((List.range k).map fun i => .chunk (file_chunk_path root r i) (chunkData file i),
        some (.readErr k)) := by
  obtain ⟨m, hm⟩ : ∃ m, n - k = m + 1 := ⟨n - k - 1, by omega⟩
  have hsplit : List.range n = List.range k ++ (List.range (m + 1)).map (k + ·) := by
    rw [← hm, ← List.range_add]
    congr 1
    omega
  have hgo_k : uploadChunksGo root r file readOk pubOk (List.range k)
      = ((List.range k).map fun i =>
          .chunk (file_chunk_path root r i) (chunkData file i), none) := by
    apply uploadChunksGo_all_ok
    · intro i hi
      exact hrbefore i (List.mem_range.mp hi)
    · intro i hi
      exact hpbefore i (List.mem_range.mp hi)
    · intro i hi
      exact hrange i (by have := List.mem_range.mp hi; omega)
  have hhead : (List.range (m + 1)).map (k + ·) = k :: ((List.range m).map Nat.succ).map (k + ·) := by
    rw [List.range_succ_eq_map]
    simp
  have hgo_fail : uploadChunksGo root r file readOk pubOk
      ((List.range (m + 1)).map (k + ·))
      = ([], some (.readErr k)) := by
    rw [hhead]
    simp only [uploadChunksGo]
    rw [if_pos hrf]
  rw [hsplit, uploadChunksGo_append_ok root r file readOk pubOk _ _ (by rw [hgo_k]),
    hgo_k, hgo_fail]
  simp

/-- C2: `Client::upload` computes the chunk count as
`size / DEFAULT_CHUNK_SIZE + 1` with truncating division (so one extra
chunk slot even on exact multiples), records it in the published
`FileMetadata`, and runs the chunk-publication loop over exactly that
many indices; `size = 2500000` gives 3 chunks. -/
theorem c2_chunk_count (root r fname ck : Str) (file : List Nat) :
    (upload root r fname ck file (fun _ => true) (fun _ => true) true).1
      = ((List.range (file.length / DEFAULT_CHUNK_SIZE + 1)).map fun i =>
          PubEvent.chunk (file_chunk_path root r i) (chunkData file i))
        ++ [.meta (file_metadata_path root r) (uploadMetadata fname ck r file.length)]
    ∧ (uploadMetadata fname ck r file.length).chunks
        = file.length / DEFAULT_CHUNK_SIZE + 1
    ∧ chunkCount 2500000 = 3 := by
  refine ⟨?_, rfl, by decide⟩
  simp only [upload]
  rw [uploadChunksGo_all_ok root r file _ _ (List.range (chunkCount file.length))
    (fun i _ => rfl) (fun i _ => rfl)
    (fun i hi => range_chunkCount_in_range file.length i (List.mem_range.mp hi))]
  simp [chunkCount]

/-- C5: in a successful upload the metadata record is published exactly
once, after the chunk payloads for all indices `0..chunks-1`, at the end
of the trace; if publishing chunk `k` fails (all earlier ones
succeeding), the upload aborts with that error, the metadata is never
published, and the already-published chunks `0..k-1` remain in the trace
(no rollback); and likewise if reading chunk `k` fails (all earlier
reads and publications succeeding), the upload aborts with the read
error, no metadata is published, and chunks `0..k-1` remain published. -/
theorem c5_metadata_last (root r fname ck : Str) (file : List Nat)
    (readOk pubOk : Nat → Bool) (metaOk : Bool) :
    ((∀ i, readOk i = true) → (∀ i, pubOk i = true) → metaOk = true →
      upload root r fname ck file readOk pubOk metaOk
        = (((List.range (chunkCount file.length)).map fun i =>
              PubEvent.chunk (file_chunk_path root r i) (chunkData file i))
            ++ [.meta (file_metadata_path root r) (uploadMetadata fname ck r file.length)],
          .ok (file_metadata_path root r)))
    ∧ (∀ k, k < chunkCount file.length → pubOk k = false →
        (∀ i < k, pubOk i = true) → (∀ i, readOk i = true) →
        upload root r fname ck file readOk pubOk metaOk
          = ((List.range k).map fun i =>
                PubEvent.chunk (file_chunk_path root r i) (chunkData file i),
            .error (.chunkPubErr k)))
    ∧ (∀ k, k < chunkCount file.length → readOk k = false →
        (∀ i < k, readOk i = true) → (∀ i < k, pubOk i = true) →
        upload root r fname ck file readOk pubOk metaOk
          = ((List.range k).map fun i =>
                PubEvent.chunk (file_chunk_path root r i) (chunkData file i),
            .error (.readErr k))) := by
  refine ⟨?_, ?_, ?_⟩
  · intro hread hpub hmeta
    simp only [upload]
    rw [uploadChunksGo_all_ok root r file _ _ (List.range (chunkCount file.length))
      (fun i _ => hread i) (fun i _ => hpub i)
      (fun i hi => range_chunkCount_in_range file.length i (List.mem_range.mp hi))]
    simp [hmeta]
  · intro k hk hpf hbefore hread
    simp only [upload]
    rw [uploadChunksGo_fail_at root r file readOk pubOk (chunkCount file.length) k
      hk hpf hbefore hread
      (fun i hi => range_chunkCount_in_range file.length i hi)]
  · intro k hk hrf hrbefore hpbefore
    simp only [upload]
    rw [uploadChunksGo_read_fail_at root r file readOk pubOk (chunkCount file.length) k
      hk hrf hrbefore hpbefore
      (fun i hi => range_chunkCount_in_range file.length i hi)]

/-- Witness for `c5_metadata_last`: a 2-byte file uploads as one chunk
then the metadata (success case with all-true oracles), aborts with
`chunkPubErr 0` and an empty trace when publishing chunk 0 fails, and
aborts with `readErr 0` and an empty trace when reading chunk 0 fails. -/
theorem c5_metadata_last_witness :
    (upload "/z".toList "f".toList "n".toList "c".toList [1, 2]
        (fun _ => true) (fun _ => true) true
      = (((List.range (chunkCount ([1, 2] : List Nat).length)).map fun i =>
            PubEvent.chunk (file_chunk_path "/z".toList "f".toList i)
              (chunkData [1, 2] i))
          ++ [.meta (file_metadata_path "/z".toList "f".toList)
              (uploadMetadata "n".toList "c".toList "f".toList ([1, 2] : List Nat).length)],
        .ok (file_metadata_path "/z".toList "f".toList)))
    ∧ (upload "/z".toList "f".toList "n".toList "c".toList [1, 2]
        (fun _ => true) (fun _ => false) true
      = ((List.range 0).map fun i =>
            PubEvent.chunk (file_chunk_path "/z".toList "f".toList i)
              (chunkData [1, 2] i),
        .error (.chunkPubErr 0)))
    ∧ (upload "/z".toList "f".toList "n".toList "c".toList [1, 2]
        (fun _ => false) (fun _ => true) true
      = ((List.range 0).map fun i =>
            PubEvent.chunk (file_chunk_path "/z".toList "f".toList i)
              (chunkData [1, 2] i),
        .error (.readErr 0))) :=
  ⟨(c5_metadata_last "/z".toList "f".toList "n".toList "c".toList [1, 2]
      (fun _ => true) (fun _ => true) true).1 (fun _ => rfl) (fun _ => rfl) rfl,
   (c5_metadata_last "/z".toList "f".toList "n".toList "c".toList [1, 2]
      (fun _ => true) (fun _ => false) true).2.1 0 (by decide) rfl
      (fun i hi => absurd hi (Nat.not_lt_zero i)) (fun _ => rfl),
   (c5_metadata_last "/z".toList "f".toList "n".toList "c".toList [1, 2]
      (fun _ => false) (fun _ => true) true).2.2 0 (by decide) rfl
      (fun i hi => absurd hi (Nat.not_lt_zero i))
      (fun i hi => absurd hi (Nat.not_lt_zero i))⟩

/-! ## Embedding of `src/client.rs`: download reply handling -/

/-- A query reply's value as seen by `Client::download`: the encoding
prefix (`5` = `Encoding::APP_JSON`, `1` = `Encoding::APP_OCTET_STREAM`)
and the raw payload bytes. -/
structure ReplyValue where
  encoding : Nat
  payload : List Nat
  deriving Repr, DecidableEq

/-- Failures surfaced by `Client::download`'s reply handling. -/
inductive DownloadErr where
  | notFound
  | ambiguous
  | malformedMetadata
  | wrongMetadataEncoding
  | wrongChunkEncoding
  deriving Repr, DecidableEq

/-- The metadata-query reply handling of `Client::download`
(lines 92-130): zero replies is "File not found", exactly one reply must
carry encoding prefix 5 (JSON) and deserialize (UTF-8 + serde, the
parameter `dec`), and two or more replies are "more than one response".
-/
def download_metadata_reply (dec : List Nat → Option FileMetadataR)
    (replies : List ReplyValue) : Except DownloadErr FileMetadataR :=
  match replies with
  | [] => .error .notFound
  | [reply] =>
    if reply.encoding = 5 then
      match dec reply.payload with
      | some md => .ok md
      | none => .error .malformedMetadata
    else .error .wrongMetadataEncoding
  | _ => .error .ambiguous

/-- The chunk-query reply handling of `Client::download` (lines 136-166):
zero replies is "File not found", exactly one reply must carry encoding
prefix 1 (octet-stream) and yields its raw payload, and two or more
replies are "more than one response". -/
def download_chunk_reply (replies : List ReplyValue) :
    Except DownloadErr (List Nat) :=
  match replies with
  | [] => .error .notFound
  | [reply] =>
    if reply.encoding = 1 then .ok reply.payload
    else .error .wrongChunkEncoding
  | _ => .error .ambiguous

/-- C6: for both the metadata query and every chunk query of download,
zero replies yields the not-found error, two or more replies yield the
ambiguity error (replies are never merged), a single reply with the wrong
encoding tag yields the malformed-payload error for that query kind, and
download proceeds exactly on a single correctly tagged reply, using only
that reply's payload. -/
theorem c6_reply_taxonomy (dec : List Nat → Option FileMetadataR) :
    (download_metadata_reply dec [] = .error .notFound
      ∧ download_chunk_reply [] = .error .notFound)
    ∧ (∀ r1 r2 rest, download_metadata_reply dec (r1 :: r2 :: rest) = .error .ambiguous
      ∧ download_chunk_reply (r1 :: r2 :: rest) = .error .ambiguous)
    ∧ (∀ reply, reply.encoding ≠ 5 →
        download_metadata_reply dec [reply] = .error .wrongMetadataEncoding)
    ∧ (∀ reply, reply.encoding ≠ 1 →
        download_chunk_reply [reply] = .error .wrongChunkEncoding)
    ∧ (∀ reply md, reply.encoding = 5 → dec reply.payload = some md →
        download_metadata_reply dec [reply] = .ok md)
    ∧ (∀ reply, reply.encoding = 1 →
        download_chunk_reply [reply] = .ok reply.payload) := by
  refine ⟨⟨rfl, rfl⟩, fun r1 r2 rest => ⟨rfl, rfl⟩, ?_, ?_, ?_, ?_⟩
  · intro reply h
    simp only [download_metadata_reply]
    rw [if_neg h]
  · intro reply h
    simp only [download_chunk_reply]
    rw [if_neg h]
  · intro reply md henc hdec
    simp only [download_metadata_reply]
    rw [if_pos henc, hdec]
  · intro reply henc
    simp only [download_chunk_reply]
    rw [if_pos henc]

/-- Witness for `c6_reply_taxonomy` with a constant decoder and concrete
single replies of each encoding. -/
theorem c6_reply_taxonomy_witness :
    (download_metadata_reply (fun _ => some (uploadMetadata [] [] [] 0)) []
        = .error .notFound
      ∧ download_chunk_reply [] = .error .notFound)
    ∧ (download_metadata_reply (fun _ => some (uploadMetadata [] [] [] 0))
          [⟨5, []⟩, ⟨5, []⟩] = .error .ambiguous
      ∧ download_chunk_reply [⟨1, []⟩, ⟨1, []⟩] = .error .ambiguous)
    ∧ download_metadata_reply (fun _ => some (uploadMetadata [] [] [] 0))
        [⟨1, []⟩] = .error .wrongMetadataEncoding
    ∧ download_chunk_reply [⟨5, []⟩] = .error .wrongChunkEncoding
    ∧ download_metadata_reply (fun _ => some (uploadMetadata [] [] [] 0))
        [⟨5, [7]⟩] = .ok (uploadMetadata [] [] [] 0)
    ∧ download_chunk_reply [⟨1, [9]⟩] = .ok [9] := by
  have h := c6_reply_taxonomy (fun _ => some (uploadMetadata [] [] [] 0))
  exact ⟨h.1,
    ⟨(h.2.1 ⟨5, []⟩ ⟨5, []⟩ []).1, (h.2.1 ⟨1, []⟩ ⟨1, []⟩ []).2⟩,
    h.2.2.1 ⟨1, []⟩ (by decide),
    h.2.2.2.1 ⟨5, []⟩ (by decide),
    h.2.2.2.2.1 ⟨5, [7]⟩ (uploadMetadata [] [] [] 0) rfl rfl,
    h.2.2.2.2.2 ⟨1, [9]⟩ rfl⟩

/-! ## Embedding of `src/server.rs`: ingest -/

/-- `zenoh::ChangeKind` as matched by `Server::process_sample`. -/
inductive ChangeKindM where
  | put
  | patch
  | delete
  deriving Repr, DecidableEq

/-- `zenoh::Value` as matched by `Server::process_sample`: raw binary
buffers, JSON text, or any other variant (which is only logged). -/
inductive ZValue where
  | raw (buf : List Nat)
  | json (v : Str)
  | other
  deriving Repr, DecidableEq

/-- A change notification (`zenoh::Change`). -/
structure SampleM where
  path : Str
  kind : ChangeKindM
  value : Option ZValue
  deriving Repr, DecidableEq

/-- Disk writes performed by the ingest handler.  `createDir` is
`create_dir_if_not_exists` (succeeds when the directory already exists);
`writeFile`/`writeTextFile` are `write_chunk_file`/`write_metadata_file`,
which `File::create` (truncate) and then write the whole content. -/
inductive DiskEffect where
  | createDir (p : Str)
  | writeFile (p : Str) (content : List Nat)
  | writeTextFile (p : Str) (content : Str)
  deriving Repr, DecidableEq

/-- Errors of `Server::process_sample`. -/
inductive SrvErr where
  | missingValue
  | badPath
  | badChunkNumber
  | malformedMetadata
  deriving Repr, DecidableEq

/-- `Server::process_sample` (lines 166-251).  `h` is `hash_path` (the
SHA-256 hex digest of the `sha2` crate, an external collaborator), `dec`
is `FileMetadata::deserialize` (serde-JSON), `chunksDir` the configured
chunk directory and `pre` the resource prefix the handler computes from
its configuration.  The returned list is the sequence of disk writes of
the taken branch. -/
def process_sample (h : Str → Str) (dec : Str → Option FileMetadataR)
    (chunksDir pre : Str) (s : SampleM) : Except SrvErr (List DiskEffect) :=
  match s.kind with
  | .put | .patch =>
    match s.value with
    | none => .error .missingValue
    | some (.raw buf) =>
      match extract_file_path pre s.path with
      | none => .error .badPath
      | some path =>
        match extract_chunk_number s.path with
        | none => .error .badChunkNumber
        | some chunk_number =>
          .ok [.createDir (chunksDir ++ '/' :: h path),
            .writeFile (chunksDir ++ '/' :: h path ++ '/' :: natToDec chunk_number) buf]
    | some (.json v) =>
      match dec v with
      | none => .error .malformedMetadata
      | some md =>
        .ok [.writeTextFile
          (chunksDir ++ '/' :: h md.resource_name ++ '/' :: METADATA_KEY) v]
    | some .other => .ok []
  | .delete => .ok []

/-- Contents of a stored file: raw chunk bytes or metadata text. -/
inductive FileContent where
  | bin (data : List Nat)
  | text (v : Str)
  deriving Repr, DecidableEq

/-- The server's disk: which directories exist and which files hold which
content. -/
structure Disk where
  dirs : Str → Bool
  files : Str → Option FileContent

/-- Apply one disk effect.  `create_dir_all` succeeds whether or not the
directory exists; `File::create` truncates and the subsequent `write_all`
replaces the whole content. -/
def applyEffect (d : Disk) : DiskEffect → Disk
  | .createDir p => { d with dirs := fun q => if q = p then true else d.dirs q }
  | .writeFile p c => { d with files := fun q => if q = p then some (.bin c) else d.files q }
  | .writeTextFile p c => { d with files := fun q => if q = p then some (.text c) else d.files q }

/-- Apply a sequence of disk effects in order. -/
def applyEffects (d : Disk) (l : List DiskEffect) : Disk := l.foldl applyEffect d

theorem disk_eq_of_fields {d1 d2 : Disk}
    (hd : d1.dirs = d2.dirs) (hf : d1.files = d2.files) : d1 = d2 := by
  cases d1
  cases d2
  simp only at hd hf
  rw [hd, hf]

theorem applyEffects_chunk_idem (d : Disk) (a b : Str) (c : List Nat) :
    applyEffects (applyEffects d [.createDir a, .writeFile b c])
        [.createDir a, .writeFile b c]
      = applyEffects d [.createDir a, .writeFile b c] := by
  apply disk_eq_of_fields
  · funext q
    simp only [applyEffects, List.foldl, applyEffect]
    by_cases hq : q = a <;> simp [hq]
  · funext q
    simp only [applyEffects, List.foldl, applyEffect]
    by_cases hq : q = b <;> simp [hq]

theorem applyEffects_text_idem (d : Disk) (p v : Str) :
    applyEffects (applyEffects d [.writeTextFile p v]) [.writeTextFile p v]
      = applyEffects d [.writeTextFile p v] := by
  apply disk_eq_of_fields
  · funext q
    simp [applyEffects, applyEffect]
  · funext q
    simp only [applyEffects, List.foldl, applyEffect]
    by_cases hq : q = p <;> simp [hq]

/-- C7: a Put notification with a JSON payload that deserializes into a
`FileMetadata` makes the ingest handler write the raw serialized bytes to
`chunksDir/digest(metadata.resource_name)/metadata`, where the shard name
comes solely from the metadata body's `resource_name`; the notification's
key path plays no role (no cross-check). -/
theorem c7_metadata_ingest (h : Str → Str) (dec : Str → Option FileMetadataR)
    (chunksDir pre path1 path2 v : Str) (md : FileMetadataR)
    (hdec : dec v = some md) :
    process_sample h dec chunksDir pre ⟨path1, .put, some (.json v)⟩
        = .ok [.writeTextFile
            (chunksDir ++ '/' :: h md.resource_name ++ '/' :: METADATA_KEY) v]
    ∧ process_sample h dec chunksDir pre ⟨path1, .put, some (.json v)⟩
        = process_sample h dec chunksDir pre ⟨path2, .put, some (.json v)⟩ := by
  constructor
  · simp only [process_sample]
    rw [hdec]
  · simp only [process_sample]

/-- Witness for `c7_metadata_ingest` with the identity digest stand-in
and a constant decoder. -/
theorem c7_metadata_ingest_witness :
    (fun _ => some (uploadMetadata [] [] "res".toList 0) :
        Str → Option FileMetadataR) "jsonpayload".toList
        = some (uploadMetadata [] [] "res".toList 0)
    ∧ process_sample (fun s => s) (fun _ => some (uploadMetadata [] [] "res".toList 0))
          "/tmp/chunks".toList "/z/files".toList
          ⟨"/z/files/other/0".toList, .put, some (.json "jsonpayload".toList)⟩
        = .ok [.writeTextFile
            ("/tmp/chunks".toList ++ '/'
              :: (fun s : Str => s) (uploadMetadata [] [] "res".toList 0).resource_name
              ++ '/' :: METADATA_KEY) "jsonpayload".toList]
    ∧ process_sample (fun s => s) (fun _ => some (uploadMetadata [] [] "res".toList 0))
          "/tmp/chunks".toList "/z/files".toList
          ⟨"/z/files/other/0".toList, .put, some (.json "jsonpayload".toList)⟩
        = process_sample (fun s => s) (fun _ => some (uploadMetadata [] [] "res".toList 0))
          "/tmp/chunks".toList "/z/files".toList
          ⟨"/completely/different".toList, .put, some (.json "jsonpayload".toList)⟩ := by
  have h := c7_metadata_ingest (fun s => s)
    (fun _ => some (uploadMetadata [] [] "res".toList 0))
    "/tmp/chunks".toList "/z/files".toList
    "/z/files/other/0".toList "/completely/different".toList
    "jsonpayload".toList (uploadMetadata [] [] "res".toList 0) rfl
  exact ⟨rfl, h.1, h.2⟩

/-- C9: a Delete notification produces no disk effect at all and returns
success. -/
theorem c9_delete_no_effect (h : Str → Str) (dec : Str → Option FileMetadataR)
    (chunksDir pre : Str) (s : SampleM) (hkind : s.kind = .delete) :
    process_sample h dec chunksDir pre s = .ok []
    ∧ ∀ d : Disk, applyEffects d [] = d := by
  constructor
  · simp only [process_sample, hkind]
  · intro d
    rfl

/-- Witness for `c9_delete_no_effect` on a concrete Delete notification. -/
theorem c9_delete_no_effect_witness :
    (SampleM.mk "/z/files/foo/0".toList .delete none).kind = .delete
    ∧ (process_sample (fun s => s) (fun _ => none) "/tmp/chunks".toList
          "/z/files".toList ⟨"/z/files/foo/0".toList, .delete, none⟩ = .ok []
      ∧ ∀ d : Disk, applyEffects d [] = d) :=
  ⟨rfl, c9_delete_no_effect (fun s => s) (fun _ => none) "/tmp/chunks".toList
    "/z/files".toList ⟨"/z/files/foo/0".toList, .delete, none⟩ rfl⟩

/-- C10: ingest is idempotent: whenever `process_sample` succeeds with a
list of disk effects, applying those effects twice leaves the disk in
exactly the state of applying them once (files are rewritten with the
same bytes, lazy directory creation tolerates the existing directory). -/
theorem c10_ingest_idempotent (h : Str → Str) (dec : Str → Option FileMetadataR)
    (chunksDir pre : Str) (s : SampleM) (effs : List DiskEffect)
    (hok : process_sample h dec chunksDir pre s = .ok effs) (d : Disk) :
    applyEffects (applyEffects d effs) effs = applyEffects d effs := by
  cases s with
  | mk spath skind svalue =>
    cases skind with
    | delete =>
      simp only [process_sample] at hok
      obtain rfl : ([] : List DiskEffect) = effs := by injection hok
      rfl
    | put =>
      cases svalue with
      | none => simp [process_sample] at hok
      | some v =>
        cases v with
        | raw buf =>
          simp only [process_sample] at hok
          cases hfp : extract_file_path pre spath with
          | none => rw [hfp] at hok; simp at hok
          | some path =>
            rw [hfp] at hok
            cases hcn : extract_chunk_number spath with
            | none => rw [hcn] at hok; simp at hok
            | some n =>
              rw [hcn] at hok
              simp only [Except.ok.injEq] at hok
              subst hok
              exact applyEffects_chunk_idem d _ _ _
        | json v =>
          simp only [process_sample] at hok
          cases hdec : dec v with
          | none => rw [hdec] at hok; simp at hok
          | some md =>
            rw [hdec] at hok
            simp only [Except.ok.injEq] at hok
            subst hok
            exact applyEffects_text_idem d _ _
        | other =>
          simp only [process_sample] at hok
          obtain rfl : ([] : List DiskEffect) = effs := by injection hok
          rfl
    | patch =>
      cases svalue with
      | none => simp [process_sample] at hok
      | some v =>
        cases v with
        | raw buf =>
          simp only [process_sample] at hok
          cases hfp : extract_file_path pre spath with
          | none => rw [hfp] at hok; simp at hok
          | some path =>
            rw [hfp] at hok
            cases hcn : extract_chunk_number spath with
            | none => rw [hcn] at hok; simp at hok
            | some n =>
              rw [hcn] at hok
              simp only [Except.ok.injEq] at hok
              subst hok
              exact applyEffects_chunk_idem d _ _ _
        | json v =>
          simp only [process_sample] at hok
          cases hdec : dec v with
          | none => rw [hdec] at hok; simp at hok
          | some md =>
            rw [hdec] at hok
            simp only [Except.ok.injEq] at hok
            subst hok
            exact applyEffects_text_idem d _ _
        | other =>
          simp only [process_sample] at hok
          obtain rfl : ([] : List DiskEffect) = effs := by injection hok
          rfl

/-- Witness for `c10_ingest_idempotent` on a concrete binary chunk
notification and the empty disk. -/
theorem c10_ingest_idempotent_witness :
    process_sample (fun s => s) (fun _ => none) "/tmp/chunks".toList
        "/z/files".toList ⟨"/z/files/foo/0".toList, .put, some (.raw [1, 2, 3])⟩
      = .ok [.createDir ("/tmp/chunks".toList ++ '/'
            :: (fun s : Str => s) "/foo".toList),
          .writeFile ("/tmp/chunks".toList ++ '/'
            :: (fun s : Str => s) "/foo".toList ++ '/' :: natToDec 0) [1, 2, 3]]
    ∧ applyEffects (applyEffects ⟨fun _ => false, fun _ => none⟩
          [.createDir ("/tmp/chunks".toList ++ '/'
            :: (fun s : Str => s) "/foo".toList),
          .writeFile ("/tmp/chunks".toList ++ '/'
            :: (fun s : Str => s) "/foo".toList ++ '/' :: natToDec 0) [1, 2, 3]])
          [.createDir ("/tmp/chunks".toList ++ '/'
            :: (fun s : Str => s) "/foo".toList),
          .writeFile ("/tmp/chunks".toList ++ '/'
            :: (fun s : Str => s) "/foo".toList ++ '/' :: natToDec 0) [1, 2, 3]]
      = applyEffects ⟨fun _ => false, fun _ => none⟩
          [.createDir ("/tmp/chunks".toList ++ '/'
            :: (fun s : Str => s) "/foo".toList),
          .writeFile ("/tmp/chunks".toList ++ '/'
            :: (fun s : Str => s) "/foo".toList ++ '/' :: natToDec 0) [1, 2, 3]] := by
  have hok : process_sample (fun s => s) (fun _ => none) "/tmp/chunks".toList
      "/z/files".toList ⟨"/z/files/foo/0".toList, .put, some (.raw [1, 2, 3])⟩
      = .ok [.createDir ("/tmp/chunks".toList ++ '/'
            :: (fun s : Str => s) "/foo".toList),
          .writeFile ("/tmp/chunks".toList ++ '/'
            :: (fun s : Str => s) "/foo".toList ++ '/' :: natToDec 0) [1, 2, 3]] := by
    rfl
  exact ⟨hok, c10_ingest_idempotent (fun s => s) (fun _ => none)
    "/tmp/chunks".toList "/z/files".toList
    ⟨"/z/files/foo/0".toList, .put, some (.raw [1, 2, 3])⟩ _ hok
    ⟨fun _ => false, fun _ => none⟩⟩
